import Mathlib

/-!
# Verification of the SVM Merkle page storage core

A shallow embedding of `crates/svm-storage/src/merkle_page_storage.rs`
together with the in-memory key-value store of `crates/svm-kv/src/memory.rs`.

Bytes are modelled as `List Nat`; the storage is generic over the page hasher
(`PH`) and the state hasher (`KH`) exactly as the Rust code is generic over its
`PageHasher` and `KeyHasher` type parameters, so the hashers appear here as a
`Hashers` record passed to every operation.  Panics (`panic!`, `assert!`,
`unreachable!`, out-of-bounds indexing) are modelled by `Option`: `none` is a
fatal failure of the operation.  The shared `Rc<RefCell<KV>>` handle is
modelled by passing the key-value map explicitly in and out of operations.
-/

namespace Svm

/-- Byte strings (`Vec<u8>` / `&[u8]`); a byte is a `Nat`. -/
abbrev Bytes := List Nat

/-- A 32-byte page digest (`PageHash([u8; 32])`). -/
abbrev PageHash := Bytes

/-- A 32-byte state root (`svm_common::State`). -/
abbrev StateRoot := Bytes

/-- Contract address (`svm_common::Address`), opaque bytes. -/
abbrev Address := Bytes

/-- Rust `State::empty()`: the all-zero 32-byte state root. -/
def emptyState : StateRoot := List.replicate 32 0

/-- The 32-byte zero buffer `[0; 32]` that `compute_zero_page_hash` hashes. -/
def zeroPage : Bytes := List.replicate 32 0

/-! ## The in-memory key-value store (`MemKVStore`)

The Rust store is a `HashMap<Vec<u8>, Vec<u8>>`.  We model it as an
association list where the most recent insertion is at the front, which is
observationally equivalent through `get`. -/

/-- The key-value store contents. -/
abbrev KV := List (Bytes × Bytes)

/-- Rust `MemKVStore::get`: look the key up, `None` when absent. -/
def kvGet : KV → Bytes → Option Bytes
  | [], _ => none
  | (k, v) :: rest, key => if k = key then some v else kvGet rest key

/-- Rust `MemKVStore::store`: insert every change in order; within one call a later
entry for the same key wins, and entries shadow older map contents. -/
def kvStore (kv : KV) (changes : List (Bytes × Bytes)) : KV :=
  changes.foldl (fun m c => c :: m) kv

/-! ## The Merkle page storage -/

/-- The page-slot type (`enum MerklePage`). -/
inductive MerklePage where
  | Uninitialized : MerklePage
  | NotModified : PageHash → MerklePage
  | Modified : PageHash → Bytes → MerklePage
deriving DecidableEq

/-- The pair of hash functions the storage is generic over: `PH::hash` taking
`(addr, page_idx, page_data)`, and `KH::hash` over the joined page hashes
(composed with `State::from`). -/
structure Hashers where
  phash : Address → Nat → Bytes → PageHash
  khash : Bytes → StateRoot

/-- The `MerklePageStorage` struct (the `kv` handle is passed separately). -/
structure MerklePageStorage where
  state : StateRoot
  addr : Address
  pages : List MerklePage
  pagesCount : Nat
deriving DecidableEq

namespace MerklePageStorage

/-- Rust `compute_page_hash`. -/
def computePageHash (H : Hashers) (s : MerklePageStorage) (pageIdx : Nat)
    (pageData : Bytes) : PageHash :=
  H.phash s.addr pageIdx pageData

/-- Rust `compute_zero_page_hash`: the page hash of the 32-byte zero buffer. -/
def computeZeroPageHash (H : Hashers) (s : MerklePageStorage) (pageIdx : Nat) : PageHash :=
  computePageHash H s pageIdx zeroPage

/-- Rust `v.chunks_exact(n)` with explicit fuel (the fuel is the list length, so the
definition reduces in the kernel); the trailing remainder shorter than `n` is
dropped, as in Rust. -/
def chunksExactAux (n : Nat) : Nat → Bytes → List Bytes
  | 0, _ => []
  | fuel + 1, l => if l.length < n then [] else l.take n :: chunksExactAux n fuel (l.drop n)

/-- Rust `v.chunks_exact(n)`. -/
def chunksExact (n : Nat) (l : Bytes) : List Bytes :=
  chunksExactAux n l.length l

/-- The constructor loop `for (page_idx, raw_ph) in v.chunks_exact(32).enumerate()
{ self.pages[page_idx] = NotModified(ph) }`; indexing out of bounds is the
fatal `none`. -/
def setChunks : List MerklePage → Nat → List Bytes → Option (List MerklePage)
  | pages, _, [] => some pages
  | pages, i, c :: cs =>
    if i < pages.length then setChunks (pages.set i (.NotModified c)) (i + 1) cs else none

/-- Rust `init_pages_state`: populate `self.pages` from the opening state.  The
zero state initializes every slot with its zero-page hash without KV I/O; a
non-zero state is looked up in KV (missing is the fatal `panic!`), the digest
vector length is `assert!`ed to be a multiple of 32, and the 32-byte chunks
are written into the page vector. -/
def initPagesState (H : Hashers) (s : MerklePageStorage) (kv : KV) :
    Option MerklePageStorage :=
  if s.state = emptyState then
    some { s with
           pages := (List.range s.pagesCount).map
             (fun i => .NotModified (computeZeroPageHash H s i)) }
  else
    match kvGet kv s.state with
    | some v =>
      if v.length % 32 = 0 then
        match setChunks s.pages 0 (chunksExact 32 v) with
        | some pages => some { s with pages := pages }
        | none => none
      else none
    | none => none

/-- Rust `MerklePageStorage::new`. -/
def new (H : Hashers) (addr : Address) (kv : KV) (state : StateRoot)
    (pagesCount : Nat) : Option MerklePageStorage :=
  initPagesState H
    { state := state, addr := addr,
      pages := List.replicate pagesCount .Uninitialized, pagesCount := pagesCount }
    kv

/-- Rust `get_state`. -/
def getState (s : MerklePageStorage) : StateRoot := s.state

/-- Rust `get_page_hash`; `none` models the out-of-bounds panic and the
`unreachable!()` on an `Uninitialized` slot. -/
def getPageHash (s : MerklePageStorage) (pageIdx : Nat) : Option PageHash :=
  match s.pages[pageIdx]? with
  | some (.NotModified ph) => some ph
  | some (.Modified ph _) => some ph
  | some .Uninitialized => none
  | none => none

/-- Rust `read_page`: the outer `Option` is fatal failure (the dirty-read panic,
`unreachable!()`, or an out-of-range index), the inner `Option` is the Rust
return value `Option<Vec<u8>>`. -/
def readPage (s : MerklePageStorage) (kv : KV) (pageIdx : Nat) :
    Option (Option Bytes) :=
  match s.pages[pageIdx]? with
  | some (.NotModified ph) => some (kvGet kv ph)
  | some (.Modified _ _) => none
  | some .Uninitialized => none
  | none => none

/-- Rust `write_page`: hash the new data and replace the slot with `Modified`;
`none` models the out-of-bounds panic of `self.pages[page_idx] = …`. -/
def writePage (H : Hashers) (s : MerklePageStorage) (pageIdx : Nat)
    (pageData : Bytes) : Option MerklePageStorage :=
  let ph := computePageHash H s pageIdx pageData
  if pageIdx < s.pages.length then
    some { s with pages := s.pages.set pageIdx (.Modified ph pageData) }
  else none

/-- The body of `clear`'s loop: each `Modified(ph, ..)` slot becomes
`NotModified(ph)` — note the *dirty* hash is kept — and `Uninitialized` is the
fatal `unreachable!()`. -/
def clearPages : List MerklePage → Option (List MerklePage)
  | [] => some []
  | .Modified ph _ :: rest => (clearPages rest).map (.NotModified ph :: ·)
  | .NotModified ph :: rest => (clearPages rest).map (.NotModified ph :: ·)
  | .Uninitialized :: _ => none

/-- Rust `clear`. -/
def clear (s : MerklePageStorage) : Option MerklePageStorage :=
  (clearPages s.pages).map (fun pages => { s with pages := pages })

/-- The loop body of `prepare_changeset`: walk the pages in index order,
concatenating every slot's hash into `joined_pages_hash` and pushing a
`(page_hash, page_data)` change for every `Modified` slot. -/
def changesetAux : List MerklePage → Option (Bytes × List (Bytes × Bytes))
  | [] => some ([], [])
  | .NotModified ph :: rest =>
    (changesetAux rest).map (fun p => (ph ++ p.1, p.2))
  | .Modified ph data :: rest =>
    (changesetAux rest).map (fun p => (ph ++ p.1, (ph, data) :: p.2))
  | .Uninitialized :: _ => none

/-- Rust `prepare_changeset`: returns `(new_state, joined_pages_hash, changes)`. -/
def prepareChangeset (H : Hashers) (s : MerklePageStorage) :
    Option (StateRoot × Bytes × List (Bytes × Bytes)) :=
  (changesetAux s.pages).map (fun p => (H.khash p.1, p.1, p.2))

/-- The KV batch `commit` builds: the `new_state → joined_pages_hash` entry
first, followed by the dirty-page changes in page-index order. -/
def commitBatch (H : Hashers) (s : MerklePageStorage) :
    Option (StateRoot × List (Bytes × Bytes)) :=
  match prepareChangeset H s with
  | some (newState, jph, changeset) => some (newState, (newState, jph) :: changeset)
  | none => none

/-- Rust `commit`: store the batch, install the new state, then `clear`. -/
def commit (H : Hashers) (s : MerklePageStorage) (kv : KV) :
    Option (MerklePageStorage × KV) :=
  match commitBatch H s with
  | some (newState, entries) =>
    match clear { s with state := newState } with
    | some s2 => some (s2, kvStore kv entries)
    | none => none
  | none => none

end MerklePageStorage

/-! ## Hasher assumptions

The Rust code is generic over its hashers; the spec requires them to be
deterministic and collision-resistant.  Collision-freedom is expressed by the
predicates below and assumed by the theorems that need it; a concrete
collision-free instance (`wHashers`) witnesses their satisfiability. -/

/-- For a fixed address, the page hasher never collides across
`(page_idx, page_data)` pairs. -/
def PhashInj (H : Hashers) (addr : Address) : Prop :=
  ∀ i d i2 d2, H.phash addr i d = H.phash addr i2 d2 → i = i2 ∧ d = d2

/-- The state hasher never collides. -/
def KhashInj (H : Hashers) : Prop :=
  ∀ v v2, H.khash v = H.khash v2 → v = v2

/-- State hashes never collide with page hashes of the given address. -/
def HashersDisjoint (H : Hashers) (addr : Address) : Prop :=
  ∀ v i d, H.khash v ≠ H.phash addr i d

/-- The state hasher never produces the reserved all-zero state. -/
def KhashNeEmpty (H : Hashers) : Prop :=
  ∀ v, H.khash v ≠ emptyState

/-- Page hashes are 32 bytes long, as `PageHash([u8; 32])` guarantees. -/
def PhashLen32 (H : Hashers) (addr : Address) : Prop :=
  ∀ i d, (H.phash addr i d).length = 32

/-! ### A concrete collision-free hasher

An executable injective digest: a byte list is coded by the pair of a base
`B` larger than every entry and its base-`B` value with all digits shifted to
be non-zero.  Both numbers are emitted into a 32-entry digest, so the
injectivity needed by the theorems can be discharged on this instance. -/

/-- The largest entry of a byte list (`0` for the empty list). -/
def listMax (l : Bytes) : Nat := l.foldr max 0

/-- A base strictly larger than every entry of `l` plus one. -/
def listBase (l : Bytes) : Nat := listMax l + 2

/-- The base-`B` value of `l` with digits `x+1` (low digit first). -/
def listDigits (B : Nat) (l : Bytes) : Nat :=
  l.foldr (fun n acc => acc * B + (n + 1)) 0

/-- The concrete hashers: page hashes are tagged `1`, state hashes `2`. -/
def wHashers : Hashers where
  phash := fun _addr i d =>
    1 :: listBase (i :: d) :: listDigits (listBase (i :: d)) (i :: d)
      :: List.replicate 29 0
  khash := fun v =>
    2 :: listBase v :: listDigits (listBase v) v :: List.replicate 29 0

/-! ## Run-level derived definitions

These describe whole transactions: a storage opened at some state, a sequence
of `write_page` calls, and a `commit`; together with the canonical (purely
functional) values that run produces. -/

namespace MerklePageStorage

/-- Apply a sequence of `write_page` calls in order. -/
def applyWrites (H : Hashers) : MerklePageStorage → List (Nat × Bytes) → Option MerklePageStorage
  | s, [] => some s
  | s, w :: ws =>
    match writePage H s w.1 w.2 with
    | some s2 => applyWrites H s2 ws
    | none => none

/-- A full first transaction: open a fresh storage at the zero state over
`kv`, apply the writes, and commit. -/
def runCommit (H : Hashers) (addr : Address) (n : Nat) (ws : List (Nat × Bytes))
    (kv : KV) : Option (MerklePageStorage × KV) :=
  match new H addr kv emptyState n with
  | some s =>
    match applyWrites H s ws with
    | some s2 => commit H s2 kv
    | none => none
  | none => none

end MerklePageStorage

/-- The last bytes a write sequence writes to page `i`, if any. -/
def lastWrite (ws : List (Nat × Bytes)) (i : Nat) : Option Bytes :=
  ws.foldl (fun acc w => if w.1 = i then some w.2 else acc) none

/-- Every write of a sequence addresses a page index below `n`. -/
def WritesInRange (ws : List (Nat × Bytes)) (n : Nat) : Prop :=
  ∀ w ∈ ws, w.1 < n

instance (ws : List (Nat × Bytes)) (n : Nat) : Decidable (WritesInRange ws n) :=
  inferInstanceAs (Decidable (∀ w ∈ ws, w.1 < n))

/-- The digest recorded in a page slot (junk on `Uninitialized`). -/
def slotHash : MerklePage → PageHash
  | .NotModified ph => ph
  | .Modified ph _ => ph
  | .Uninitialized => []

/-- The KV change a slot contributes to `prepare_changeset`. -/
def modEntry : MerklePage → Option (Bytes × Bytes)
  | .Modified ph d => some (ph, d)
  | _ => none

/-- A storage whose `n` slots are all `Clean` with digest `f i` at slot `i`:
the shape of every freshly constructed storage. -/
def openedStorage (addr : Address) (st : StateRoot) (n : Nat) (f : Nat → PageHash) :
    MerklePageStorage :=
  { state := st, addr := addr,
    pages := (List.range n).map (fun i => .NotModified (f i)), pagesCount := n }

/-- The slot page `i` holds after applying `ws` to an all-clean storage whose
slot `i` held digest `f i`. -/
def pageSlotAfter (H : Hashers) (addr : Address) (ws : List (Nat × Bytes))
    (f : Nat → PageHash) (i : Nat) : MerklePage :=
  match lastWrite ws i with
  | some d => .Modified (H.phash addr i d) d
  | none => .NotModified (f i)

/-- The digest of slot `i` after applying `ws`. -/
def hashAfter (H : Hashers) (addr : Address) (ws : List (Nat × Bytes))
    (f : Nat → PageHash) (i : Nat) : PageHash :=
  slotHash (pageSlotAfter H addr ws f i)

/-- The joined digest vector a commit after `ws` hashes and stores. -/
def jphAfter (H : Hashers) (addr : Address) (n : Nat) (ws : List (Nat × Bytes))
    (f : Nat → PageHash) : Bytes :=
  ((List.range n).map (hashAfter H addr ws f)).flatten

/-- The canonical dirty-page change list: one entry per written page, in
ascending page-index order, carrying the bytes of the page's last write. -/
def changesAfter (H : Hashers) (addr : Address) (n : Nat) (ws : List (Nat × Bytes)) :
    List (Bytes × Bytes) :=
  (List.range n).filterMap
    (fun i => (lastWrite ws i).map (fun d => (H.phash addr i d, d)))

/-- The zero-state digest assignment: every slot holds its zero-page hash. -/
def zeroHashes (H : Hashers) (addr : Address) : Nat → PageHash :=
  fun i => H.phash addr i zeroPage

/-! ## Concrete scenario inputs

Concrete data used to exhibit failing inputs and to instantiate the
hypotheses of the general theorems.  The address is the `0x11_22_33_44` of
the repository's tests. -/

/-- The test address `0x11_22_33_44`. -/
def wAddr : Address := [17, 34, 51, 68]

/-- A junk storage/KV pair used only as an `Option.getD` default. -/
def junkPair : MerklePageStorage × KV :=
  ({ state := [], addr := [], pages := [], pagesCount := 0 }, [])

/-- Write `[1,2,3]` to page 0 of a fresh one-page storage, `clear`, then
`get_page_hash(0)`. -/
def c1run : Option PageHash :=
  match MerklePageStorage.new wHashers wAddr [] emptyState 1 with
  | some s =>
    match MerklePageStorage.writePage wHashers s 0 [1, 2, 3] with
    | some s2 =>
      match MerklePageStorage.clear s2 with
      | some s3 => MerklePageStorage.getPageHash s3 0
      | none => none
    | none => none
  | none => none

/-- A non-zero 32-byte state root present in a corrupted KV. -/
def c5state : StateRoot := List.replicate 32 1

/-- A 32-byte page digest that is not any page's zero-page digest and has no
KV entry. -/
def c5digest : PageHash := List.replicate 32 2

/-- A KV holding only the state entry, with the referenced page bytes absent. -/
def c5kv : KV := [(c5state, c5digest)]

/-- The storage expected from opening `c5state` over `c5kv`. -/
def c5storage : MerklePageStorage :=
  { state := c5state, addr := wAddr, pages := [.NotModified c5digest], pagesCount := 1 }

/-- A KV whose digest vector for `c5state` is empty (length `0 % 32 = 0`)
although the storage is opened with one page. -/
def c7kv : KV := [(c5state, [])]

/-- The storage expected from opening `c5state` over `c7kv` with one page:
the single slot stays `Uninitialized`. -/
def c7storage : MerklePageStorage :=
  { state := c5state, addr := wAddr, pages := [.Uninitialized], pagesCount := 1 }

/-- First transaction of the rollback scenario: no writes, one page, commit. -/
def c9run1 : MerklePageStorage × KV :=
  (MerklePageStorage.runCommit wHashers wAddr 1 [] []).getD junkPair

/-- Second transaction: reopen the committed state and write the 32-byte zero
page to the (never previously written) page 0, then commit. -/
def c9run2 : MerklePageStorage × KV :=
  (match MerklePageStorage.new wHashers wAddr c9run1.2 c9run1.1.state 1 with
   | some s =>
     match MerklePageStorage.applyWrites wHashers s [(0, zeroPage)] with
     | some s2 => MerklePageStorage.commit wHashers s2 c9run1.2
     | none => none
   | none => none).getD junkPair

/-- Reopen the first committed state after the second commit and read page 0. -/
def c9reread : Option (Option (Option Bytes)) :=
  (MerklePageStorage.new wHashers wAddr c9run2.2 c9run1.1.state 1).map
    (fun s => MerklePageStorage.readPage s c9run2.2 0)

/-- A concrete write sequence: one write of three bytes to page 0. -/
def c2ws : List (Nat × Bytes) := [(0, [10, 20, 30])]

/-- The storage/KV pair after running `c2ws` on a fresh two-page storage. -/
def c2pair : MerklePageStorage × KV :=
  (MerklePageStorage.runCommit wHashers wAddr 2 c2ws []).getD junkPair

/-- The one-page digest vector of an empty commit under `wHashers`. -/
def c3v : Bytes := wHashers.phash wAddr 0 zeroPage

/-- The state root an empty one-page commit produces under `wHashers`. -/
def c3state : StateRoot := wHashers.khash c3v

/-- A KV holding the committed state entry `c3state → c3v`. -/
def c3kv : KV := [(c3state, c3v)]

/-- The storage obtained by opening `c3state` over `c3kv`. -/
def c3s : MerklePageStorage :=
  (MerklePageStorage.new wHashers wAddr c3kv c3state 1).getD junkPair.1

/-- A fresh one-page storage at the zero state. -/
def c6base : MerklePageStorage :=
  (MerklePageStorage.new wHashers wAddr [] emptyState 1).getD junkPair.1

/-- The storage `c6base` after `write_page(0, [5, 6])`: page 0 is Dirty. -/
def c6s : MerklePageStorage :=
  (MerklePageStorage.writePage wHashers c6base 0 [5, 6]).getD junkPair.1

/-- A write sequence with duplicate page indices and byte vectors of several
lengths, none equal to the page size. -/
def c10ws : List (Nat × Bytes) := [(1, [7]), (0, [9, 9, 9, 9, 9]), (1, [8, 8])]

/-- The writes of the second rollback-scenario transaction. -/
def c9ws2 : List (Nat × Bytes) := [(0, [11, 22, 33])]

/-- The storage/KV pair after running `c9ws2` from the state committed by
`c2ws`-style run with one page and write `[10, 20, 30]`. -/
def c9ws1 : List (Nat × Bytes) := [(0, [10, 20, 30])]

/-- Run 1 of the amended-rollback witness: one page, write `[10,20,30]`. -/
def c9wpair1 : MerklePageStorage × KV :=
  (MerklePageStorage.runCommit wHashers wAddr 1 c9ws1 []).getD junkPair

/-- The reopened storage at the state of `c9wpair1`. -/
def c9wopen : MerklePageStorage :=
  (MerklePageStorage.new wHashers wAddr c9wpair1.2 c9wpair1.1.state 1).getD junkPair.1

/-- Run 2 of the amended-rollback witness: overwrite page 0 and commit. -/
def c9wpair2 : MerklePageStorage × KV :=
  ((MerklePageStorage.applyWrites wHashers c9wopen c9ws2).bind
    (fun s => MerklePageStorage.commit wHashers s c9wpair1.2)).getD junkPair

theorem le_listMax_of_mem : ∀ {l : Bytes} {x : Nat}, x ∈ l → x ≤ listMax l := by
  intro l
  induction l with
  | nil => intro x h; cases h
  | cons a t ih =>
    intro x h
    rcases List.mem_cons.mp h with h | h
    · subst h; exact Nat.le_max_left _ _
    · exact (ih h).trans (Nat.le_max_right _ _)

theorem listDigits_inj {B : Nat} :
    ∀ {l1 l2 : Bytes}, (∀ x ∈ l1, x + 1 < B) → (∀ x ∈ l2, x + 1 < B) →
      listDigits B l1 = listDigits B l2 → l1 = l2 := by
  intro l1
  induction l1 with
  | nil =>
    intro l2 _ hb2 h
    cases l2 with
    | nil => rfl
    | cons m u =>
      exfalso
      simp only [listDigits, List.foldr] at h
      omega
  | cons n t ih =>
    intro l2 hb1 hb2 h
    cases l2 with
    | nil =>
      exfalso
      simp only [listDigits, List.foldr] at h
      omega
    | cons m u =>
      simp only [listDigits, List.foldr] at h
      have hn : n + 1 < B := hb1 n (List.mem_cons_self n t)
      have hm : m + 1 < B := hb2 m (List.mem_cons_self m u)
      have hB : 0 < B := by omega
      set dt := List.foldr (fun n acc => acc * B + (n + 1)) 0 t with hdt
      set du := List.foldr (fun n acc => acc * B + (n + 1)) 0 u with hdu
      have hmod : (dt * B + (n + 1)) % B = (du * B + (m + 1)) % B := by rw [h]
      rw [Nat.mul_comm dt B, Nat.mul_comm du B, Nat.mul_add_mod,
        Nat.mul_add_mod, Nat.mod_eq_of_lt hn, Nat.mod_eq_of_lt hm] at hmod
      have hdiv : (dt * B + (n + 1)) / B = (du * B + (m + 1)) / B := by rw [h]
      rw [Nat.add_comm (dt * B), Nat.add_comm (du * B),
        Nat.add_mul_div_right _ _ hB, Nat.add_mul_div_right _ _ hB,
        Nat.div_eq_of_lt hn, Nat.div_eq_of_lt hm] at hdiv
      have ht : t = u := by
        refine ih (fun x hx => hb1 x (List.mem_cons_of_mem _ hx))
          (fun x hx => hb2 x (List.mem_cons_of_mem _ hx)) ?_
        simpa [listDigits, ← hdt, ← hdu] using hdiv
      subst ht
      have : n = m := by omega
      simp [this]

theorem listCode_inj {l1 l2 : Bytes}
    (hb : listBase l1 = listBase l2)
    (hd : listDigits (listBase l1) l1 = listDigits (listBase l2) l2) :
    l1 = l2 := by
  refine listDigits_inj (B := listBase l1)
    (fun x hx => ?_) (fun x hx => ?_) (by rw [hb] at hd ⊢; exact hd)
  · have := le_listMax_of_mem hx
    simp only [listBase]; omega
  · have := le_listMax_of_mem hx
    rw [hb]
    simp only [listBase]; omega

theorem wHashers_phashInj (addr : Address) : PhashInj wHashers addr := by
  intro i d i2 d2 h
  simp only [wHashers, List.cons.injEq] at h
  obtain ⟨hb, hd, -⟩ := h.2
  have := listCode_inj hb hd
  exact ⟨by injection this, by injection this⟩

theorem wHashers_khashInj : KhashInj wHashers := by
  intro v v2 h
  simp only [wHashers, List.cons.injEq] at h
  obtain ⟨hb, hd, -⟩ := h.2
  exact listCode_inj hb hd

theorem wHashers_disjoint (addr : Address) : HashersDisjoint wHashers addr := by
  intro v i d h
  simp only [wHashers, List.cons.injEq] at h
  omega

theorem wHashers_khashNeEmpty : KhashNeEmpty wHashers := by
  intro v h
  have he : emptyState = 0 :: List.replicate 31 0 := rfl
  rw [he] at h
  simp only [wHashers, List.cons.injEq] at h
  omega

theorem wHashers_phashLen32 (addr : Address) : PhashLen32 wHashers addr := by
  intro i d
  simp [wHashers]

/-! ## Key-value store lemmas -/

theorem kvStore_cons (kv : KV) (e : Bytes × Bytes) (es : List (Bytes × Bytes)) :
    kvStore kv (e :: es) = kvStore (e :: kv) es := rfl

theorem kvGet_store_not_mem : ∀ {es : List (Bytes × Bytes)} (kv : KV) {k : Bytes},
    k ∉ es.map Prod.fst → kvGet (kvStore kv es) k = kvGet kv k := by
  intro es
  induction es with
  | nil => intro kv k _; rfl
  | cons e es ih =>
    intro kv k hk
    rw [kvStore_cons]
    simp only [List.map_cons, List.mem_cons, not_or] at hk
    rw [ih _ hk.2]
    obtain ⟨k1, v1⟩ := e
    have hne : k1 ≠ k := fun h => hk.1 (by simp [h])
    simp only [kvGet, if_neg hne]

theorem kvGet_store_mem : ∀ {es : List (Bytes × Bytes)} (kv : KV) {k v : Bytes},
    es.Pairwise (fun a b => a.1 ≠ b.1) → (k, v) ∈ es →
    kvGet (kvStore kv es) k = some v := by
  intro es
  induction es with
  | nil => intro kv k v _ h; cases h
  | cons e es ih =>
    intro kv k v hp hm
    rw [kvStore_cons]
    obtain ⟨k1, v1⟩ := e
    rcases List.mem_cons.mp hm with he | hm2
    · obtain ⟨hk1, hv1⟩ := Prod.mk.inj he
      subst hk1
      subst hv1
      have hk : k ∉ es.map Prod.fst := by
        intro hmem
        rcases List.mem_map.mp hmem with ⟨b, hb, hb1⟩
        exact (List.pairwise_cons.mp hp).1 b hb hb1.symm
      rw [kvGet_store_not_mem _ hk]
      simp [kvGet]
    · exact ih _ (List.pairwise_cons.mp hp).2 hm2

theorem kvGet_store_cases : ∀ {es : List (Bytes × Bytes)} (base : KV) {k v : Bytes},
    kvGet (kvStore base es) k = some v → (k, v) ∈ es ∨ kvGet base k = some v := by
  intro es
  induction es with
  | nil => intro base k v h; exact Or.inr h
  | cons e es ih =>
    intro base k v h
    rw [kvStore_cons] at h
    rcases ih _ h with hm | hbase
    · exact Or.inl (List.mem_cons_of_mem _ hm)
    · obtain ⟨k1, v1⟩ := e
      by_cases hk : k1 = k
      · subst hk
        have hv : v1 = v := by simpa [kvGet] using hbase
        exact Or.inl (by rw [← hv]; exact List.mem_cons_self _ _)
      · simp only [kvGet, if_neg hk] at hbase
        exact Or.inr hbase

/-! ## `chunks_exact` lemmas -/

theorem chunksExactAux_congr : ∀ (fuel fuel2 : Nat) (l : Bytes) (_ : l.length ≤ fuel)
    (_ : l.length ≤ fuel2) (_ : 0 < n),
    MerklePageStorage.chunksExactAux n fuel l = MerklePageStorage.chunksExactAux n fuel2 l := by
  intro fuel
  induction fuel with
  | zero =>
    intro fuel2 l hl _ hn
    have : l = [] := List.eq_nil_of_length_eq_zero (Nat.le_zero.mp hl)
    subst this
    cases fuel2 with
    | zero => rfl
    | succ f2 => simp [MerklePageStorage.chunksExactAux, hn]
  | succ f ih =>
    intro fuel2 l hl hl2 hn
    cases fuel2 with
    | zero =>
      have : l = [] := List.eq_nil_of_length_eq_zero (Nat.le_zero.mp hl2)
      subst this
      simp [MerklePageStorage.chunksExactAux, hn]
    | succ f2 =>
      simp only [MerklePageStorage.chunksExactAux]
      by_cases hlen : l.length < n
      · simp [hlen]
      · simp only [hlen, if_false]
        have hd : (l.drop n).length ≤ f := by
          rw [List.length_drop]; omega
        have hd2 : (l.drop n).length ≤ f2 := by
          rw [List.length_drop]; omega
        rw [ih f2 _ hd hd2 hn]

theorem chunksExact_cons32 (l : Bytes) (h : 32 ≤ l.length) :
    MerklePageStorage.chunksExact 32 l
      = l.take 32 :: MerklePageStorage.chunksExact 32 (l.drop 32) := by
  unfold MerklePageStorage.chunksExact
  obtain ⟨m, hm⟩ : ∃ m, l.length = m + 1 := ⟨l.length - 1, by omega⟩
  rw [hm]
  simp only [MerklePageStorage.chunksExactAux]
  rw [if_neg (by omega)]
  congr 1
  exact chunksExactAux_congr m (l.drop 32).length (l.drop 32)
    (by rw [List.length_drop]; omega) le_rfl (by omega)

theorem chunksExact_flatten : ∀ (hs : List Bytes), (∀ h ∈ hs, h.length = 32) →
    MerklePageStorage.chunksExact 32 hs.flatten = hs := by
  intro hs
  induction hs with
  | nil => intro _; rfl
  | cons h t ih =>
    intro hlen
    have h32 : h.length = 32 := hlen h (List.mem_cons_self _ _)
    rw [List.flatten_cons,
      chunksExact_cons32 _ (by rw [List.length_append, h32]; omega),
      List.take_left' h32, List.drop_left' h32,
      ih (fun x hx => hlen x (List.mem_cons_of_mem _ hx))]

theorem flatten_chunksExact : ∀ (k : Nat) (v : Bytes), v.length = 32 * k →
    (MerklePageStorage.chunksExact 32 v).flatten = v := by
  intro k
  induction k with
  | zero =>
    intro v hv
    have : v = [] := List.eq_nil_of_length_eq_zero (by omega)
    subst this
    rfl
  | succ m ih =>
    intro v hv
    rw [chunksExact_cons32 _ (by omega), List.flatten_cons,
      ih (v.drop 32) (by rw [List.length_drop]; omega)]
    exact List.take_append_drop 32 v

theorem chunksExact_length : ∀ (k : Nat) (v : Bytes), v.length = 32 * k →
    (MerklePageStorage.chunksExact 32 v).length = k := by
  intro k
  induction k with
  | zero =>
    intro v hv
    have : v = [] := List.eq_nil_of_length_eq_zero (by omega)
    subst this
    rfl
  | succ m ih =>
    intro v hv
    rw [chunksExact_cons32 _ (by omega), List.length_cons,
      ih (v.drop 32) (by rw [List.length_drop]; omega)]

theorem chunksExact_mem_length : ∀ (k : Nat) (v : Bytes), v.length = 32 * k →
    ∀ c ∈ MerklePageStorage.chunksExact 32 v, c.length = 32 := by
  intro k
  induction k with
  | zero =>
    intro v hv c hc
    have : v = [] := List.eq_nil_of_length_eq_zero (by omega)
    subst this
    cases hc
  | succ m ih =>
    intro v hv c hc
    rw [chunksExact_cons32 _ (by omega)] at hc
    rcases List.mem_cons.mp hc with rfl | hc2
    · rw [List.length_take]
      omega
    · exact ih (v.drop 32) (by rw [List.length_drop]; omega) c hc2

theorem flatten_length_32 : ∀ (hs : List Bytes), (∀ h ∈ hs, h.length = 32) →
    hs.flatten.length = 32 * hs.length := by
  intro hs
  induction hs with
  | nil => intro _; rfl
  | cons h t ih =>
    intro hlen
    rw [List.flatten_cons, List.length_append, List.length_cons,
      hlen h (List.mem_cons_self _ _), ih (fun x hx => hlen x (List.mem_cons_of_mem _ hx))]
    ring

/-! ## Constructor lemmas -/

theorem setChunks_cons_shift : ∀ (cs : List Bytes) (x : MerklePage)
    (pages : List MerklePage) (i : Nat),
    MerklePageStorage.setChunks (x :: pages) (i + 1) cs
      = (MerklePageStorage.setChunks pages i cs).map (x :: ·) := by
  intro cs
  induction cs with
  | nil => intro x pages i; rfl
  | cons c cs ih =>
    intro x pages i
    simp only [MerklePageStorage.setChunks, List.length_cons]
    by_cases h : i < pages.length
    · rw [if_pos (by omega), if_pos h, List.set_cons_succ, ih]
    · rw [if_neg (by omega), if_neg h]
      rfl

theorem setChunks_fill : ∀ (cs : List Bytes) (n : Nat), cs.length = n →
    MerklePageStorage.setChunks (List.replicate n .Uninitialized) 0 cs
      = some (cs.map .NotModified) := by
  intro cs
  induction cs with
  | nil =>
    intro n h
    subst h
    rfl
  | cons c cs ih =>
    intro n h
    cases n with
    | zero => cases h
    | succ m =>
      have hlen : cs.length = m := by simpa using h
      rw [List.replicate_succ]
      simp only [MerklePageStorage.setChunks, List.length_cons, List.length_replicate]
      rw [if_pos (by omega), List.set_cons_zero, setChunks_cons_shift,
        ih m hlen]
      rfl

theorem new_empty (H : Hashers) (addr : Address) (kv : KV) (n : Nat) :
    MerklePageStorage.new H addr kv emptyState n
      = some (openedStorage addr emptyState n (zeroHashes H addr)) := by
  simp [MerklePageStorage.new, MerklePageStorage.initPagesState, openedStorage, zeroHashes,
    MerklePageStorage.computeZeroPageHash, MerklePageStorage.computePageHash]

theorem new_committed (H : Hashers) (addr : Address) (kv : KV) (st : StateRoot)
    (hs : List Bytes) (n : Nat) (hne : st ≠ emptyState)
    (hget : kvGet kv st = some hs.flatten)
    (hlen : ∀ h ∈ hs, h.length = 32) (hcount : hs.length = n) :
    MerklePageStorage.new H addr kv st n
      = some { state := st, addr := addr, pages := hs.map .NotModified, pagesCount := n } := by
  simp only [MerklePageStorage.new, MerklePageStorage.initPagesState, if_neg hne, hget]
  rw [if_pos (by rw [flatten_length_32 hs hlen]; omega), chunksExact_flatten hs hlen,
    setChunks_fill hs n hcount]

/-! ## Write-sequence lemmas -/

theorem lastWrite_acc (i : Nat) : ∀ (ws : List (Nat × Bytes)) (acc : Option Bytes),
    ws.foldl (fun acc w => if w.1 = i then some w.2 else acc) acc
      = (lastWrite ws i).elim acc some := by
  intro ws
  induction ws with
  | nil => intro acc; rfl
  | cons w ws ih =>
    intro acc
    simp only [lastWrite, List.foldl_cons]
    rw [ih, ih (if w.1 = i then some w.2 else none)]
    by_cases hw : w.1 = i <;> cases h : lastWrite ws i <;> simp [h, hw]

theorem lastWrite_cons (w : Nat × Bytes) (ws : List (Nat × Bytes)) (i : Nat) :
    lastWrite (w :: ws) i
      = (lastWrite ws i).elim (if w.1 = i then some w.2 else none) some := by
  simp only [lastWrite, List.foldl_cons]
  rw [lastWrite_acc]
  rfl

theorem lastWrite_some_mem : ∀ {ws : List (Nat × Bytes)} {i : Nat} {d : Bytes},
    lastWrite ws i = some d → (i, d) ∈ ws := by
  intro ws
  induction ws with
  | nil => intro i d h; cases h
  | cons w ws ih =>
    intro i d h
    rw [lastWrite_cons] at h
    cases hl : lastWrite ws i with
    | some d2 =>
      rw [hl, Option.elim_some] at h
      exact List.mem_cons_of_mem _ (ih (hl.trans h))
    | none =>
      rw [hl, Option.elim_none] at h
      by_cases hw : w.1 = i
      · rw [if_pos hw] at h
        obtain ⟨j, e⟩ := w
        obtain rfl : j = i := hw
        obtain rfl : e = d := by simpa using h
        exact List.mem_cons_self _ _
      · rw [if_neg hw] at h
        cases h

/-! ## `applyWrites` -/

theorem applyWrites_spec (H : Hashers) : ∀ (ws : List (Nat × Bytes)) (s : MerklePageStorage),
    (∀ w ∈ ws, w.1 < s.pages.length) →
    ∃ s2, MerklePageStorage.applyWrites H s ws = some s2 ∧
      s2.state = s.state ∧ s2.addr = s.addr ∧ s2.pagesCount = s.pagesCount ∧
      s2.pages.length = s.pages.length ∧
      ∀ i, s2.pages[i]? = (lastWrite ws i).elim s.pages[i]?
        (fun d => some (.Modified (H.phash s.addr i d) d)) := by
  intro ws
  induction ws with
  | nil =>
    intro s _
    exact ⟨s, rfl, rfl, rfl, rfl, rfl, fun i => by simp [lastWrite]⟩
  | cons w ws ih =>
    intro s hr
    obtain ⟨j, d⟩ := w
    have hj : j < s.pages.length := hr (j, d) (List.mem_cons_self _ _)
    have hstep : MerklePageStorage.applyWrites H s ((j, d) :: ws)
        = MerklePageStorage.applyWrites H
          { s with pages := s.pages.set j (.Modified (H.phash s.addr j d) d) } ws := by
      simp only [MerklePageStorage.applyWrites, MerklePageStorage.writePage,
        MerklePageStorage.computePageHash]
      rw [if_pos hj]
    obtain ⟨s2, happ, hst, haddr, hcount, hlen, hget⟩ :=
      ih { s with pages := s.pages.set j (.Modified (H.phash s.addr j d) d) }
        (by intro w hw; simpa using hr w (List.mem_cons_of_mem _ hw))
    refine ⟨s2, hstep.trans happ, hst, haddr, hcount, by simpa using hlen, ?_⟩
    intro i
    rw [hget i, lastWrite_cons]
    by_cases hij : j = i
    · subst hij
      cases h : lastWrite ws j with
      | some d2 => simp [h]
      | none => simp [h, List.getElem?_set_self hj]
    · cases h : lastWrite ws i with
      | some d2 => simp [h]
      | none => simp [h, hij, List.getElem?_set_ne hij]

/-! ## Changeset, clear and commit lemmas -/

theorem changesetAux_spec : ∀ (pages : List MerklePage),
    MerklePage.Uninitialized ∉ pages →
    MerklePageStorage.changesetAux pages
      = some ((pages.map slotHash).flatten, pages.filterMap modEntry) := by
  intro pages
  induction pages with
  | nil => intro _; rfl
  | cons p ps ih =>
    intro h
    have hps : MerklePage.Uninitialized ∉ ps := fun hm => h (List.mem_cons_of_mem _ hm)
    cases p with
    | Uninitialized => exact absurd (List.mem_cons_self _ _) h
    | NotModified ph =>
      simp [MerklePageStorage.changesetAux, ih hps, slotHash, modEntry, List.filterMap_cons]
    | Modified ph d =>
      simp [MerklePageStorage.changesetAux, ih hps, slotHash, modEntry, List.filterMap_cons]

theorem clearPages_some : ∀ (pages : List MerklePage),
    MerklePage.Uninitialized ∉ pages →
    MerklePageStorage.clearPages pages
      = some (pages.map (fun p => .NotModified (slotHash p))) := by
  intro pages
  induction pages with
  | nil => intro _; rfl
  | cons p ps ih =>
    intro h
    have hps : MerklePage.Uninitialized ∉ ps := fun hm => h (List.mem_cons_of_mem _ hm)
    cases p with
    | Uninitialized => exact absurd (List.mem_cons_self _ _) h
    | NotModified ph => simp [MerklePageStorage.clearPages, ih hps, slotHash]
    | Modified ph d => simp [MerklePageStorage.clearPages, ih hps, slotHash]

theorem clearPages_eq : ∀ {pages pages2 : List MerklePage},
    MerklePageStorage.clearPages pages = some pages2 →
    pages2 = pages.map (fun p => .NotModified (slotHash p)) := by
  intro pages
  induction pages with
  | nil =>
    intro pages2 h
    simpa [MerklePageStorage.clearPages] using h.symm
  | cons p ps ih =>
    intro pages2 h
    cases p with
    | Uninitialized => cases h
    | NotModified ph =>
      simp only [MerklePageStorage.clearPages] at h
      cases hcp : MerklePageStorage.clearPages ps with
      | none => rw [hcp] at h; cases h
      | some ps2 =>
        rw [hcp] at h
        simp only [Option.map_some', Option.some.injEq] at h
        subst h
        simp [slotHash, ih hcp]
    | Modified ph d =>
      simp only [MerklePageStorage.clearPages] at h
      cases hcp : MerklePageStorage.clearPages ps with
      | none => rw [hcp] at h; cases h
      | some ps2 =>
        rw [hcp] at h
        simp only [Option.map_some', Option.some.injEq] at h
        subst h
        simp [slotHash, ih hcp]

theorem commit_spec (H : Hashers) (s : MerklePageStorage) (kv : KV)
    (h : MerklePage.Uninitialized ∉ s.pages) :
    MerklePageStorage.commit H s kv = some
      ({ state := H.khash (s.pages.map slotHash).flatten, addr := s.addr,
         pages := s.pages.map (fun p => .NotModified (slotHash p)),
         pagesCount := s.pagesCount },
       kvStore kv
         ((H.khash (s.pages.map slotHash).flatten, (s.pages.map slotHash).flatten)
           :: s.pages.filterMap modEntry)) := by
  simp only [MerklePageStorage.commit, MerklePageStorage.commitBatch,
    MerklePageStorage.prepareChangeset, changesetAux_spec s.pages h, Option.map_some',
    MerklePageStorage.clear]
  rw [clearPages_some _ h]
  rfl

/-! ## Canonical run lemmas -/

theorem pageSlotAfter_ne_uninit (H : Hashers) (addr : Address) (ws : List (Nat × Bytes))
    (f : Nat → PageHash) (i : Nat) :
    pageSlotAfter H addr ws f i ≠ MerklePage.Uninitialized := by
  unfold pageSlotAfter
  cases lastWrite ws i <;> simp

theorem opened_getElem (addr : Address) (st : StateRoot) (n : Nat) (f : Nat → PageHash)
    (i : Nat) :
    (openedStorage addr st n f).pages[i]?
      = if i < n then some (.NotModified (f i)) else none := by
  simp only [openedStorage, List.getElem?_map]
  by_cases h : i < n
  · rw [List.getElem?_range h]
    simp [h]
  · rw [List.getElem?_eq_none (by simpa [List.length_range] using Nat.le_of_not_lt h)]
    simp [h]

theorem applyWrites_opened (H : Hashers) (addr : Address) (st : StateRoot) (n : Nat)
    (f : Nat → PageHash) (ws : List (Nat × Bytes)) (hr : WritesInRange ws n) :
    MerklePageStorage.applyWrites H (openedStorage addr st n f) ws
      = some { state := st, addr := addr,
               pages := (List.range n).map (pageSlotAfter H addr ws f),
               pagesCount := n } := by
  have hlen : (openedStorage addr st n f).pages.length = n := by
    simp [openedStorage]
  obtain ⟨s2, happ, hst, haddr, hcount, hlen2, hget⟩ :=
    applyWrites_spec H ws (openedStorage addr st n f)
      (by intro w hw; rw [hlen]; exact hr w hw)
  rw [happ]
  congr 1
  have hpages : s2.pages = (List.range n).map (pageSlotAfter H addr ws f) := by
    apply List.ext_get?
    intro i
    rw [List.get?_eq_getElem?, List.get?_eq_getElem?, hget i, List.getElem?_map]
    cases hl : lastWrite ws i with
    | some d =>
      have hi : i < n := hr (i, d) (lastWrite_some_mem hl)
      rw [List.getElem?_range hi]
      simp only [Option.elim_some, Option.map_some']
      have : pageSlotAfter H addr ws f i = .Modified (H.phash addr i d) d := by
        unfold pageSlotAfter
        rw [hl]
      rw [this]
      rfl
    | none =>
      rw [Option.elim_none, opened_getElem]
      by_cases hi : i < n
      · rw [List.getElem?_range hi]
        simp only [Option.map_some', if_pos hi]
        unfold pageSlotAfter
        rw [hl]
      · rw [List.getElem?_eq_none (by simpa [List.length_range] using Nat.le_of_not_lt hi)]
        simp [hi]
  cases s2 with
  | mk st2 a2 p2 c2 =>
    simp only [openedStorage] at hst haddr hcount
    simp_all

theorem commit_mid (H : Hashers) (addr : Address) (st : StateRoot) (n : Nat)
    (f : Nat → PageHash) (ws : List (Nat × Bytes)) (kv : KV) :
    MerklePageStorage.commit H
      { state := st, addr := addr,
        pages := (List.range n).map (pageSlotAfter H addr ws f), pagesCount := n } kv
      = some
        (openedStorage addr (H.khash (jphAfter H addr n ws f)) n (hashAfter H addr ws f),
         kvStore kv ((H.khash (jphAfter H addr n ws f), jphAfter H addr n ws f)
           :: changesAfter H addr n ws)) := by
  have hnu : MerklePage.Uninitialized ∉ (List.range n).map (pageSlotAfter H addr ws f) := by
    intro hm
    rcases List.mem_map.mp hm with ⟨i, _, hi⟩
    exact pageSlotAfter_ne_uninit H addr ws f i hi
  rw [commit_spec H _ kv hnu]
  have hhash : ((List.range n).map (pageSlotAfter H addr ws f)).map slotHash
      = (List.range n).map (hashAfter H addr ws f) := by
    rw [List.map_map]
    rfl
  have hchanges : ((List.range n).map (pageSlotAfter H addr ws f)).filterMap modEntry
      = changesAfter H addr n ws := by
    rw [List.filterMap_map]
    refine List.filterMap_congr ?_
    intro i _
    simp only [Function.comp]
    unfold pageSlotAfter modEntry
    cases lastWrite ws i <;> simp
  have hpost : ((List.range n).map (pageSlotAfter H addr ws f)).map
        (fun p => MerklePage.NotModified (slotHash p))
      = (List.range n).map (fun i => MerklePage.NotModified (hashAfter H addr ws f i)) := by
    rw [List.map_map]
    rfl
  simp only [hhash, hchanges, hpost, jphAfter, openedStorage]

theorem runCommit_spec (H : Hashers) (addr : Address) (n : Nat)
    (ws : List (Nat × Bytes)) (kv : KV) (hr : WritesInRange ws n) :
    MerklePageStorage.runCommit H addr n ws kv = some
      (openedStorage addr (H.khash (jphAfter H addr n ws (zeroHashes H addr))) n
         (hashAfter H addr ws (zeroHashes H addr)),
       kvStore kv ((H.khash (jphAfter H addr n ws (zeroHashes H addr)),
         jphAfter H addr n ws (zeroHashes H addr)) :: changesAfter H addr n ws)) := by
  unfold MerklePageStorage.runCommit
  rw [new_empty]
  show (match MerklePageStorage.applyWrites H
      (openedStorage addr emptyState n (zeroHashes H addr)) ws with
    | some s2 => MerklePageStorage.commit H s2 kv
    | none => none) = _
  rw [applyWrites_opened H addr emptyState n (zeroHashes H addr) ws hr]
  exact commit_mid H addr emptyState n (zeroHashes H addr) ws kv

/-! ## Batch key lemmas -/

theorem changesAfter_mem (H : Hashers) (addr : Address) (n : Nat)
    (ws : List (Nat × Bytes)) {k v : Bytes} :
    (k, v) ∈ changesAfter H addr n ws
      ↔ ∃ i, i < n ∧ lastWrite ws i = some v ∧ k = H.phash addr i v := by
  unfold changesAfter
  rw [List.mem_filterMap]
  constructor
  · rintro ⟨i, hi, hfi⟩
    rw [List.mem_range] at hi
    cases hl : lastWrite ws i with
    | none => rw [hl] at hfi; cases hfi
    | some d =>
      rw [hl] at hfi
      simp only [Option.map_some', Option.some.injEq] at hfi
      obtain ⟨hk, hd⟩ := Prod.mk.inj hfi.symm
      exact ⟨i, hi, by rw [hd]; exact hl, by rw [hd]; exact hk⟩
  · rintro ⟨i, hi, hl, rfl⟩
    exact ⟨i, List.mem_range.mpr hi, by rw [hl]; rfl⟩

theorem entries_pairwise (H : Hashers) (addr : Address) (n : Nat)
    (ws : List (Nat × Bytes)) (jph : Bytes)
    (hinj : PhashInj H addr) (hdis : HashersDisjoint H addr) :
    ((H.khash jph, jph) :: changesAfter H addr n ws).Pairwise
      (fun a b => a.1 ≠ b.1) := by
  refine List.Pairwise.cons ?_ ?_
  · intro b hb
    obtain ⟨k, v⟩ := b
    obtain ⟨i, _, _, rfl⟩ := (changesAfter_mem H addr n ws).mp hb
    exact hdis jph i v
  · unfold changesAfter
    refine List.Pairwise.filterMap _ ?_ (List.pairwise_lt_range n)
    intro i j hij b hb b2 hb2
    cases hli : lastWrite ws i with
    | none => rw [hli] at hb; cases hb
    | some d =>
      cases hlj : lastWrite ws j with
      | none => rw [hlj] at hb2; cases hb2
      | some e =>
        rw [hli] at hb
        rw [hlj] at hb2
        simp only [Option.map_some', Option.mem_def, Option.some.injEq] at hb hb2
        rw [← hb, ← hb2]
        intro hk
        exact absurd ((hinj i d j e hk).1) (Nat.ne_of_lt hij)

theorem hashAfter_phashF (H : Hashers) (addr : Address) (ws : List (Nat × Bytes))
    (c : Nat → Bytes) (i : Nat) :
    hashAfter H addr ws (fun j => H.phash addr j (c j)) i
      = H.phash addr i ((lastWrite ws i).getD (c i)) := by
  unfold hashAfter pageSlotAfter
  cases lastWrite ws i <;> simp [slotHash]

theorem zeroHashes_phashF (H : Hashers) (addr : Address) :
    zeroHashes H addr = fun j => H.phash addr j ((fun _ => zeroPage) j) := rfl

theorem key_not_mem (H : Hashers) (addr : Address) (n : Nat) (ws : List (Nat × Bytes))
    (jph : Bytes) (hinj : PhashInj H addr) (hdis : HashersDisjoint H addr)
    (i : Nat) (b : Bytes) (hno : lastWrite ws i ≠ some b) :
    H.phash addr i b
      ∉ ((H.khash jph, jph) :: changesAfter H addr n ws).map Prod.fst := by
  intro hmem
  rcases List.mem_map.mp hmem with ⟨⟨k2, v2⟩, hm, hfst⟩
  rcases List.mem_cons.mp hm with he | hm2
  · obtain ⟨hk, -⟩ := Prod.mk.inj he
    rw [hk] at hfst
    exact hdis jph i b hfst
  · obtain ⟨j, -, hlw, rfl⟩ := (changesAfter_mem H addr n ws).mp hm2
    obtain ⟨rfl, rfl⟩ := hinj j v2 i b hfst
    exact hno hlw

theorem kvGet_commit_written (H : Hashers) (addr : Address) (n : Nat)
    (ws : List (Nat × Bytes)) (jph : Bytes) (base : KV)
    (hinj : PhashInj H addr) (hdis : HashersDisjoint H addr)
    {i : Nat} {d : Bytes} (hi : i < n) (hw : lastWrite ws i = some d) :
    kvGet (kvStore base ((H.khash jph, jph) :: changesAfter H addr n ws))
      (H.phash addr i d) = some d :=
  kvGet_store_mem base (entries_pairwise H addr n ws jph hinj hdis)
    (List.mem_cons_of_mem _ ((changesAfter_mem H addr n ws).mpr ⟨i, hi, hw, rfl⟩))

theorem kvGet_commit_root (H : Hashers) (addr : Address) (n : Nat)
    (ws : List (Nat × Bytes)) (jph : Bytes) (base : KV)
    (hinj : PhashInj H addr) (hdis : HashersDisjoint H addr) :
    kvGet (kvStore base ((H.khash jph, jph) :: changesAfter H addr n ws))
      (H.khash jph) = some jph :=
  kvGet_store_mem base (entries_pairwise H addr n ws jph hinj hdis)
    (List.mem_cons_self _ _)

theorem reopen_committed (H : Hashers) (addr : Address) (n : Nat) (f : Nat → PageHash)
    (st : StateRoot) (kv : KV) (hst : st ≠ emptyState)
    (hget : kvGet kv st = some ((List.range n).map f).flatten)
    (hflen : ∀ i, i < n → (f i).length = 32) :
    MerklePageStorage.new H addr kv st n = some (openedStorage addr st n f) := by
  rw [new_committed H addr kv st ((List.range n).map f) n hst hget
    (by
      intro h hm
      rcases List.mem_map.mp hm with ⟨i, hi, rfl⟩
      exact hflen i (List.mem_range.mp hi))
    (by simp [List.length_range])]
  simp [openedStorage, List.map_map]

theorem readPage_opened (addr : Address) (st : StateRoot) (n : Nat)
    (f : Nat → PageHash) (kv : KV) (i : Nat) (hi : i < n) :
    MerklePageStorage.readPage (openedStorage addr st n f) kv i
      = some (kvGet kv (f i)) := by
  unfold MerklePageStorage.readPage
  rw [opened_getElem, if_pos hi]

theorem readPage_opened_oob (addr : Address) (st : StateRoot) (n : Nat)
    (f : Nat → PageHash) (kv : KV) (i : Nat) (hi : ¬ i < n) :
    MerklePageStorage.readPage (openedStorage addr st n f) kv i = none := by
  unfold MerklePageStorage.readPage
  rw [opened_getElem, if_neg hi]

theorem getPageHash_opened (addr : Address) (st : StateRoot) (n : Nat)
    (f : Nat → PageHash) (i : Nat) (hi : i < n) :
    MerklePageStorage.getPageHash (openedStorage addr st n f) i = some (f i) := by
  unfold MerklePageStorage.getPageHash
  rw [opened_getElem, if_pos hi]

theorem hashAfter_of_phash_slot (H : Hashers) (addr : Address)
    (ws : List (Nat × Bytes)) (f : Nat → PageHash) (i : Nat) (c : Bytes)
    (h : f i = H.phash addr i c) :
    hashAfter H addr ws f i = H.phash addr i ((lastWrite ws i).getD c) := by
  unfold hashAfter pageSlotAfter
  cases lastWrite ws i <;> simp [slotHash, h]

theorem hashAfter_zero (H : Hashers) (addr : Address) (ws : List (Nat × Bytes))
    (i : Nat) :
    hashAfter H addr ws (zeroHashes H addr) i
      = H.phash addr i ((lastWrite ws i).getD zeroPage) :=
  hashAfter_of_phash_slot H addr ws (zeroHashes H addr) i zeroPage rfl

theorem commitBatch_mid (H : Hashers) (addr : Address) (st : StateRoot) (n : Nat)
    (f : Nat → PageHash) (ws : List (Nat × Bytes)) :
    MerklePageStorage.commitBatch H
      { state := st, addr := addr,
        pages := (List.range n).map (pageSlotAfter H addr ws f), pagesCount := n }
      = some (H.khash (jphAfter H addr n ws f),
              (H.khash (jphAfter H addr n ws f), jphAfter H addr n ws f)
                :: changesAfter H addr n ws) := by
  have hnu : MerklePage.Uninitialized ∉ (List.range n).map (pageSlotAfter H addr ws f) := by
    intro hm
    rcases List.mem_map.mp hm with ⟨i, _, hi⟩
    exact pageSlotAfter_ne_uninit H addr ws f i hi
  simp only [MerklePageStorage.commitBatch, MerklePageStorage.prepareChangeset,
    changesetAux_spec _ hnu, Option.map_some']
  have hhash : ((List.range n).map (pageSlotAfter H addr ws f)).map slotHash
      = (List.range n).map (hashAfter H addr ws f) := by
    rw [List.map_map]
    rfl
  have hchanges : ((List.range n).map (pageSlotAfter H addr ws f)).filterMap modEntry
      = changesAfter H addr n ws := by
    rw [List.filterMap_map]
    refine List.filterMap_congr ?_
    intro i _
    simp only [Function.comp]
    unfold pageSlotAfter modEntry
    cases lastWrite ws i <;> simp
  simp only [hhash, hchanges, jphAfter]

/-! ## Claim theorems -/

set_option maxRecDepth 100000 in
/-- C1: the claim (and the spec's design) require `clear` to restore a Dirty
slot to its *pre-write* digest, but the source's `clear` replaces
`Modified(ph, ..)` with `NotModified(ph)`, keeping the dirty hash: on a fresh
one-page storage, after `write_page(0, [1,2,3])` and `clear()`,
`get_page_hash(0)` is the hash of `[1,2,3]`, not the pre-write zero-page
hash.  This theorem evaluates the code at that failing input. -/
theorem merkle_c1_clear_keeps_dirty_hash :
    c1run = some (wHashers.phash wAddr 0 [1, 2, 3]) ∧
    wHashers.phash wAddr 0 [1, 2, 3] ≠ wHashers.phash wAddr 0 zeroPage := by
  constructor
  · decide
  · decide

set_option maxRecDepth 100000 in
/-- C5 counterexample: a Clean slot can hold a digest (`c5digest`, which is
not the zero-page digest of `(wAddr, 0)`) with no KV entry, and `read_page`
then returns the non-fatal `Some none` instead of failing fatally as the
claim requires. -/
theorem merkle_c5_counterexample :
    MerklePageStorage.new wHashers wAddr c5kv c5state 1 = some c5storage ∧
    MerklePageStorage.readPage c5storage c5kv 0 = some none ∧
    c5digest ≠ wHashers.phash wAddr 0 zeroPage := by
  refine ⟨by decide, by decide, by decide⟩

/-- C5 amended: `read_page` on a Clean slot returns the KV lookup of the
slot's digest unchanged — a missing entry yields a non-fatal `None` whether
or not the digest is the zero-page digest; no fatal error arises on this
path. -/
theorem merkle_c5_amended (s : MerklePageStorage) (kv : KV) (i : Nat)
    (ph : PageHash) (h : s.pages[i]? = some (.NotModified ph)) :
    MerklePageStorage.readPage s kv i = some (kvGet kv ph) ∧
    MerklePageStorage.readPage s kv i ≠ none := by
  unfold MerklePageStorage.readPage
  rw [h]
  exact ⟨rfl, by simp⟩

set_option maxRecDepth 100000 in
/-- C5 amended, witness: the amended statement instantiated at the concrete
corrupted KV of the counterexample scenario. -/
theorem merkle_c5_amended_witness :
    c5storage.pages[0]? = some (.NotModified c5digest) ∧
    (MerklePageStorage.readPage c5storage c5kv 0 = some (kvGet c5kv c5digest) ∧
      MerklePageStorage.readPage c5storage c5kv 0 ≠ none) :=
  ⟨by decide, merkle_c5_amended c5storage c5kv 0 c5digest (by decide)⟩

/-- C6: `read_page` on a Dirty (`Modified`) slot fails fatally; a further
`write_page` keeps it Dirty and unreadable, while `clear` and `commit` turn
the slot back to Clean (holding the dirty hash), after which `read_page`
succeeds again with the KV lookup of that hash. -/
theorem merkle_c6_dirty_page_unreadable (H : Hashers) (s : MerklePageStorage)
    (kv : KV) (i : Nat) (ph : PageHash) (d : Bytes)
    (h : s.pages[i]? = some (.Modified ph d)) :
    MerklePageStorage.readPage s kv i = none ∧
    (∀ d2 s2, MerklePageStorage.writePage H s i d2 = some s2 →
      MerklePageStorage.readPage s2 kv i = none) ∧
    (∀ s2, MerklePageStorage.clear s = some s2 →
      s2.pages[i]? = some (.NotModified ph) ∧
      ∀ kva, MerklePageStorage.readPage s2 kva i = some (kvGet kva ph)) ∧
    (∀ s2 kv2, MerklePageStorage.commit H s kv = some (s2, kv2) →
      s2.pages[i]? = some (.NotModified ph) ∧
      ∀ kva, MerklePageStorage.readPage s2 kva i = some (kvGet kva ph)) := by
  have hi : i < s.pages.length := by
    by_contra hge
    rw [List.getElem?_eq_none (Nat.le_of_not_lt hge)] at h
    cases h
  have hclear : ∀ s2, MerklePageStorage.clear s = some s2 →
      s2.pages[i]? = some (.NotModified ph) := by
    intro s2 hc
    unfold MerklePageStorage.clear at hc
    cases hcp : MerklePageStorage.clearPages s.pages with
    | none => rw [hcp] at hc; cases hc
    | some ps2 =>
      rw [hcp] at hc
      simp only [Option.map_some', Option.some.injEq] at hc
      have hps2 : ps2 = s.pages.map (fun p => .NotModified (slotHash p)) :=
        clearPages_eq hcp
      rw [← hc, hps2]
      show (s.pages.map (fun p => MerklePage.NotModified (slotHash p)))[i]? = _
      rw [List.getElem?_map, h]
      rfl
  refine ⟨?_, ?_, ?_, ?_⟩
  · unfold MerklePageStorage.readPage
    rw [h]
  · intro d2 s2 hw
    unfold MerklePageStorage.writePage at hw
    rw [if_pos hi] at hw
    simp only [Option.some.injEq] at hw
    unfold MerklePageStorage.readPage
    rw [← hw]
    show (match (s.pages.set i _)[i]? with
      | some (.NotModified ph) => some (kvGet kv ph)
      | some (.Modified _ _) => none
      | some .Uninitialized => none
      | none => none) = none
    rw [List.getElem?_set_self hi]
  · intro s2 hc
    refine ⟨hclear s2 hc, ?_⟩
    intro kva
    unfold MerklePageStorage.readPage
    rw [hclear s2 hc]
  · intro s2 kv2 hcm
    unfold MerklePageStorage.commit at hcm
    cases hcb : MerklePageStorage.commitBatch H s with
    | none => rw [hcb] at hcm; cases hcm
    | some p =>
      obtain ⟨ns, entries⟩ := p
      rw [hcb] at hcm
      simp only at hcm
      cases hcl : MerklePageStorage.clear { s with state := ns } with
      | none => rw [hcl] at hcm; cases hcm
      | some s3 =>
        rw [hcl] at hcm
        simp only [Option.some.injEq, Prod.mk.injEq] at hcm
        obtain ⟨hs3, -⟩ := hcm
        have hp : s3.pages[i]? = some (.NotModified ph) := by
          unfold MerklePageStorage.clear at hcl
          cases hcp : MerklePageStorage.clearPages s.pages with
          | none => rw [hcp] at hcl; cases hcl
          | some ps2 =>
            rw [hcp] at hcl
            simp only [Option.map_some', Option.some.injEq] at hcl
            rw [← hcl]
            show ps2[i]? = _
            rw [clearPages_eq hcp, List.getElem?_map, h]
            rfl
        rw [hs3] at hp
        refine ⟨hp, ?_⟩
        intro kva
        unfold MerklePageStorage.readPage
        rw [hp]

set_option maxRecDepth 100000 in
/-- C6 witness: the theorem instantiated at a fresh one-page storage whose
page 0 was written with `[5, 6]`. -/
theorem merkle_c6_dirty_page_unreadable_witness :
    c6s.pages[0]? = some (.Modified (wHashers.phash wAddr 0 [5, 6]) [5, 6]) ∧
    (MerklePageStorage.readPage c6s [] 0 = none ∧
      (∀ d2 s2, MerklePageStorage.writePage wHashers c6s 0 d2 = some s2 →
        MerklePageStorage.readPage s2 [] 0 = none) ∧
      (∀ s2, MerklePageStorage.clear c6s = some s2 →
        s2.pages[0]? = some (.NotModified (wHashers.phash wAddr 0 [5, 6])) ∧
        ∀ kva, MerklePageStorage.readPage s2 kva 0
          = some (kvGet kva (wHashers.phash wAddr 0 [5, 6]))) ∧
      (∀ s2 kv2, MerklePageStorage.commit wHashers c6s [] = some (s2, kv2) →
        s2.pages[0]? = some (.NotModified (wHashers.phash wAddr 0 [5, 6])) ∧
        ∀ kva, MerklePageStorage.readPage s2 kva 0
          = some (kvGet kva (wHashers.phash wAddr 0 [5, 6])))) :=
  ⟨by decide,
   merkle_c6_dirty_page_unreadable wHashers c6s [] 0
     (wHashers.phash wAddr 0 [5, 6]) [5, 6] (by decide)⟩

set_option maxRecDepth 100000 in
/-- C7 counterexample: the constructor only asserts `len % 32 == 0`, not
`len == 32·page_count`.  Opening a one-page storage at a state whose KV
digest vector is empty succeeds and leaves the slot `Uninitialized`, which a
later `get_page_hash` observes as the fatal `unreachable!()`. -/
theorem merkle_c7_counterexample :
    MerklePageStorage.new wHashers wAddr c7kv c5state 1 = some c7storage ∧
    c7storage.pages = [MerklePage.Uninitialized] ∧
    MerklePageStorage.getPageHash c7storage 0 = none := by
  refine ⟨by decide, by decide, by decide⟩

/-- C7 amended: the constructor requires only that the digest vector length
be a multiple of 32.  At the zero state every slot becomes Clean with its
zero-page digest; at a non-zero state whose vector is exactly
`32·page_count` bytes (as every commit-written state entry is), every slot
becomes Clean — only then is no `Uninitialized` slot observable. -/
theorem merkle_c7_amended :
    (∀ (H : Hashers) (addr : Address) (kv : KV) (n : Nat),
      ∃ s, MerklePageStorage.new H addr kv emptyState n = some s ∧
        ∀ i, i < n → s.pages[i]? = some (.NotModified (H.phash addr i zeroPage))) ∧
    (∀ (H : Hashers) (addr : Address) (kv : KV) (st : StateRoot) (n : Nat) (v : Bytes),
      st ≠ emptyState → kvGet kv st = some v → v.length = 32 * n →
      ∃ s, MerklePageStorage.new H addr kv st n = some s ∧
        ∀ i, i < n → ∃ ph, s.pages[i]? = some (.NotModified ph)) := by
  constructor
  · intro H addr kv n
    refine ⟨_, new_empty H addr kv n, ?_⟩
    intro i hi
    rw [opened_getElem, if_pos hi]
    rfl
  · intro H addr kv st n v hne hget hlen
    have hchunks : MerklePageStorage.chunksExact 32 v
        = MerklePageStorage.chunksExact 32 v := rfl
    have hflat : (MerklePageStorage.chunksExact 32 v).flatten = v :=
      flatten_chunksExact n v hlen
    have hcl : ∀ c ∈ MerklePageStorage.chunksExact 32 v, c.length = 32 :=
      chunksExact_mem_length n v hlen
    have hcount : (MerklePageStorage.chunksExact 32 v).length = n :=
      chunksExact_length n v hlen
    refine ⟨_, new_committed H addr kv st (MerklePageStorage.chunksExact 32 v) n hne
      (by rw [hflat]; exact hget) hcl hcount, ?_⟩
    intro i hi
    have hlt : i < (MerklePageStorage.chunksExact 32 v).length := by omega
    show ∃ ph, ((MerklePageStorage.chunksExact 32 v).map MerklePage.NotModified)[i]?
      = some (MerklePage.NotModified ph)
    rw [List.getElem?_map, List.getElem?_eq_getElem hlt]
    exact ⟨_, rfl⟩

set_option maxRecDepth 100000 in
/-- C7 amended, witness: the zero-state part at two pages and the committed
part at the concrete one-page committed KV. -/
theorem merkle_c7_amended_witness :
    (∃ s, MerklePageStorage.new wHashers wAddr [] emptyState 2 = some s ∧
      ∀ i, i < 2 → s.pages[i]? = some (.NotModified (wHashers.phash wAddr i zeroPage))) ∧
    (c3state ≠ emptyState ∧ kvGet c3kv c3state = some c3v ∧ c3v.length = 32 * 1 ∧
      ∃ s, MerklePageStorage.new wHashers wAddr c3kv c3state 1 = some s ∧
        ∀ i, i < 1 → ∃ ph, s.pages[i]? = some (.NotModified ph)) :=
  ⟨merkle_c7_amended.1 wHashers wAddr [] 2,
   by decide, by decide, by decide,
   merkle_c7_amended.2 wHashers wAddr c3kv c3state 1 c3v (by decide) (by decide)
     (by decide)⟩

set_option maxRecDepth 100000 in
/-- C3 counterexample: on a storage freshly opened at the *zero*
(fresh-contract) state with no dirty slots, `commit` does not reproduce the
prior state: it installs the hash of the zero-page digest vector, which is
not the zero state. -/
theorem merkle_c3_counterexample :
    (MerklePageStorage.new wHashers wAddr [] emptyState 1).map
        MerklePageStorage.getState = some emptyState ∧
    (MerklePageStorage.runCommit wHashers wAddr 1 [] []).map
        (fun p => MerklePageStorage.getState p.1)
      = some (wHashers.khash (wHashers.phash wAddr 0 zeroPage)) ∧
    wHashers.khash (wHashers.phash wAddr 0 zeroPage) ≠ emptyState :=
  ⟨by decide, by decide, wHashers_khashNeEmpty _⟩

/-- C3 amended: on a storage with no Modified slots freshly opened at a
*non-zero committed* state `S` — one whose KV digest vector `v` has
`32·page_count` bytes and satisfies `KH(v) = S`, as holds for every state a
commit produces — `commit` succeeds and installs a state root equal to the
state the storage had before the call.  (At the zero state it instead
installs the hash of the zero-page digest vector, see the counterexample.) -/
theorem merkle_c3_amended (H : Hashers) (addr : Address) (kv : KV)
    (st : StateRoot) (n : Nat) (v : Bytes) (hne : st ≠ emptyState)
    (hv : kvGet kv st = some v) (hlen : v.length = 32 * n)
    (hroot : H.khash v = st) {s : MerklePageStorage}
    (hnew : MerklePageStorage.new H addr kv st n = some s) :
    MerklePageStorage.getState s = st ∧
    ∃ s2 kv2, MerklePageStorage.commit H s kv = some (s2, kv2) ∧
      MerklePageStorage.getState s2 = st := by
  have hflat : (MerklePageStorage.chunksExact 32 v).flatten = v :=
    flatten_chunksExact n v hlen
  have heq := new_committed H addr kv st (MerklePageStorage.chunksExact 32 v) n hne
    (by rw [hflat]; exact hv) (chunksExact_mem_length n v hlen)
    (chunksExact_length n v hlen)
  rw [heq] at hnew
  obtain rfl : _ = s := Option.some.inj hnew
  refine ⟨rfl, ?_⟩
  have hnu : MerklePage.Uninitialized
      ∉ (MerklePageStorage.chunksExact 32 v).map MerklePage.NotModified := by
    intro hm
    rcases List.mem_map.mp hm with ⟨c, -, hc⟩
    cases hc
  refine ⟨_, _, commit_spec H _ kv hnu, ?_⟩
  show H.khash ((((MerklePageStorage.chunksExact 32 v).map MerklePage.NotModified).map
    slotHash).flatten) = st
  rw [List.map_map]
  have : (MerklePageStorage.chunksExact 32 v).map (slotHash ∘ MerklePage.NotModified)
      = MerklePageStorage.chunksExact 32 v := by
    rw [List.map_congr_left (fun c _ => rfl : ∀ c ∈ MerklePageStorage.chunksExact 32 v,
      (slotHash ∘ MerklePage.NotModified) c = id c)]
    exact List.map_id _
  rw [this, hflat, hroot]

set_option maxRecDepth 100000 in
/-- C3 amended, witness: the committed one-page state `c3state` reopened
over `c3kv`; commit reproduces it. -/
theorem merkle_c3_amended_witness :
    (c3state ≠ emptyState ∧ kvGet c3kv c3state = some c3v ∧
      c3v.length = 32 * 1 ∧ wHashers.khash c3v = c3state ∧
      MerklePageStorage.new wHashers wAddr c3kv c3state 1 = some c3s) ∧
    (MerklePageStorage.getState c3s = c3state ∧
      ∃ s2 kv2, MerklePageStorage.commit wHashers c3s c3kv = some (s2, kv2) ∧
        MerklePageStorage.getState s2 = c3state) :=
  ⟨⟨by decide, by decide, by decide, rfl, by decide⟩,
   merkle_c3_amended wHashers wAddr c3kv c3state 1 c3v (by decide) (by decide)
     (by decide) rfl (by decide)⟩

/-- C4: a commit after any write sequence on an all-Clean storage is
deterministic and emits exactly one canonical KV batch: the state-root entry
first, then one entry per dirty page in ascending page-index order
(`changesAfter` enumerates `List.range n` in increasing order), each carrying
the bytes of the page's last write.  Two runs of the same inputs produce the
same storage and state root. -/
theorem merkle_c4_canonical_batch (H : Hashers) (addr : Address) (st : StateRoot)
    (n : Nat) (f : Nat → PageHash) (ws : List (Nat × Bytes)) (kv : KV)
    (hr : WritesInRange ws n) :
    (∃ sMid,
      MerklePageStorage.applyWrites H (openedStorage addr st n f) ws = some sMid ∧
      MerklePageStorage.commitBatch H sMid = some
        (H.khash (jphAfter H addr n ws f),
         (H.khash (jphAfter H addr n ws f), jphAfter H addr n ws f)
           :: changesAfter H addr n ws) ∧
      MerklePageStorage.commit H sMid kv = some
        (openedStorage addr (H.khash (jphAfter H addr n ws f)) n
           (hashAfter H addr ws f),
         kvStore kv ((H.khash (jphAfter H addr n ws f), jphAfter H addr n ws f)
           :: changesAfter H addr n ws))) ∧
    (∀ kvA kvB pA pB, MerklePageStorage.runCommit H addr n ws kvA = some pA →
      MerklePageStorage.runCommit H addr n ws kvB = some pB →
      pA.1 = pB.1 ∧ MerklePageStorage.getState pA.1 = MerklePageStorage.getState pB.1) := by
  constructor
  · exact ⟨_, applyWrites_opened H addr st n f ws hr,
      commitBatch_mid H addr st n f ws, commit_mid H addr st n f ws kv⟩
  · intro kvA kvB pA pB hA hB
    rw [runCommit_spec H addr n ws kvA hr] at hA
    rw [runCommit_spec H addr n ws kvB hr] at hB
    have h1 := Prod.mk.inj (Option.some.inj hA)
    have h2 := Prod.mk.inj (Option.some.inj hB)
    rw [← h1.1, ← h2.1]
    exact ⟨rfl, rfl⟩

set_option maxRecDepth 100000 in
/-- C4 witness: the canonical-batch theorem instantiated at the concrete
three-write sequence `c10ws` on a fresh two-page storage. -/
theorem merkle_c4_canonical_batch_witness :
    WritesInRange c10ws 2 ∧
    ((∃ sMid,
      MerklePageStorage.applyWrites wHashers
        (openedStorage wAddr emptyState 2 (zeroHashes wHashers wAddr)) c10ws
        = some sMid ∧
      MerklePageStorage.commitBatch wHashers sMid = some
        (wHashers.khash (jphAfter wHashers wAddr 2 c10ws (zeroHashes wHashers wAddr)),
         (wHashers.khash (jphAfter wHashers wAddr 2 c10ws (zeroHashes wHashers wAddr)),
          jphAfter wHashers wAddr 2 c10ws (zeroHashes wHashers wAddr))
           :: changesAfter wHashers wAddr 2 c10ws) ∧
      MerklePageStorage.commit wHashers sMid [] = some
        (openedStorage wAddr
           (wHashers.khash (jphAfter wHashers wAddr 2 c10ws (zeroHashes wHashers wAddr)))
           2 (hashAfter wHashers wAddr c10ws (zeroHashes wHashers wAddr)),
         kvStore []
           ((wHashers.khash (jphAfter wHashers wAddr 2 c10ws (zeroHashes wHashers wAddr)),
             jphAfter wHashers wAddr 2 c10ws (zeroHashes wHashers wAddr))
             :: changesAfter wHashers wAddr 2 c10ws))) ∧
     (∀ kvA kvB pA pB,
       MerklePageStorage.runCommit wHashers wAddr 2 c10ws kvA = some pA →
       MerklePageStorage.runCommit wHashers wAddr 2 c10ws kvB = some pB →
       pA.1 = pB.1 ∧
       MerklePageStorage.getState pA.1 = MerklePageStorage.getState pB.1)) :=
  ⟨by decide,
   merkle_c4_canonical_batch wHashers wAddr emptyState 2
     (zeroHashes wHashers wAddr) c10ws [] (by decide)⟩

/-- C8: two write sequences leaving identical final logical page contents —
treating a never-written page as the zero page the implementation hashes
(`[0; 32]`) — commit to the same state root, from any base KV. -/
theorem merkle_c8_content_determines_root (H : Hashers) (addr : Address) (n : Nat)
    (ws1 ws2 : List (Nat × Bytes)) (kvA kvB : KV)
    (hr1 : WritesInRange ws1 n) (hr2 : WritesInRange ws2 n)
    (hc : ∀ i, i < n →
      (lastWrite ws1 i).getD zeroPage = (lastWrite ws2 i).getD zeroPage) :
    (MerklePageStorage.runCommit H addr n ws1 kvA).map
        (fun p => MerklePageStorage.getState p.1)
      = (MerklePageStorage.runCommit H addr n ws2 kvB).map
        (fun p => MerklePageStorage.getState p.1) := by
  rw [runCommit_spec H addr n ws1 kvA hr1, runCommit_spec H addr n ws2 kvB hr2]
  simp only [Option.map_some']
  have hjph : jphAfter H addr n ws1 (zeroHashes H addr)
      = jphAfter H addr n ws2 (zeroHashes H addr) := by
    unfold jphAfter
    congr 1
    refine List.map_congr_left ?_
    intro i hi
    rw [hashAfter_zero, hashAfter_zero, hc i (List.mem_range.mp hi)]
  simp only [MerklePageStorage.getState, openedStorage]
  rw [hjph]

set_option maxRecDepth 100000 in
/-- C8 witness: explicitly writing the 32-byte zero page to page 0 commits
to the same root as never writing page 0 at all. -/
theorem merkle_c8_content_determines_root_witness :
    WritesInRange [((0 : Nat), zeroPage)] 1 ∧ WritesInRange ([] : List (Nat × Bytes)) 1 ∧
    (∀ i, i < 1 →
      (lastWrite [((0 : Nat), zeroPage)] i).getD zeroPage
        = (lastWrite ([] : List (Nat × Bytes)) i).getD zeroPage) ∧
    (MerklePageStorage.runCommit wHashers wAddr 1 [((0 : Nat), zeroPage)] []).map
        (fun p => MerklePageStorage.getState p.1)
      = (MerklePageStorage.runCommit wHashers wAddr 1 [] []).map
        (fun p => MerklePageStorage.getState p.1) :=
  ⟨by decide, by decide, by decide,
   merkle_c8_content_determines_root wHashers wAddr 1 [((0 : Nat), zeroPage)] [] [] []
     (by decide) (by decide) (by decide)⟩

/-- C2: after a fresh run (open at the zero state over an empty KV, write,
commit, yielding state `S` and the committed KV), opening a fresh storage at
`S` over that KV succeeds; `get_state` returns `S`, `read_page(i)` returns
the last bytes written to page `i` before the commit, and for a never-written
page it returns the implicit-zero-page result `None` while the slot holds the
zero-page digest, so the page logically reads as zeros.  Requires
collision-free hashers (`PhashInj`, `HashersDisjoint`), a state hasher that
avoids the reserved zero root, and 32-byte page digests. -/
theorem merkle_c2_roundtrip (H : Hashers) (addr : Address) (n : Nat)
    (ws : List (Nat × Bytes)) (hinj : PhashInj H addr)
    (hdis : HashersDisjoint H addr) (hne : KhashNeEmpty H)
    (hlen : PhashLen32 H addr) (hr : WritesInRange ws n)
    {s1 : MerklePageStorage} {kv1 : KV}
    (hrun : MerklePageStorage.runCommit H addr n ws [] = some (s1, kv1)) :
    ∃ s2, MerklePageStorage.new H addr kv1 (MerklePageStorage.getState s1) n
        = some s2 ∧
      MerklePageStorage.getState s2 = MerklePageStorage.getState s1 ∧
      (∀ i d, lastWrite ws i = some d →
        MerklePageStorage.readPage s2 kv1 i = some (some d)) ∧
      (∀ i, i < n → lastWrite ws i = none →
        MerklePageStorage.readPage s2 kv1 i = some none ∧
        MerklePageStorage.getPageHash s2 i = some (H.phash addr i zeroPage)) := by
  rw [runCommit_spec H addr n ws [] hr] at hrun
  obtain ⟨hs1, hkv1⟩ := Prod.mk.inj (Option.some.inj hrun)
  subst hs1
  subst hkv1
  have hflen : ∀ i, i < n → (hashAfter H addr ws (zeroHashes H addr) i).length = 32 := by
    intro i _
    rw [hashAfter_zero]
    exact hlen i _
  have hopen : MerklePageStorage.new H addr
      (kvStore [] ((H.khash (jphAfter H addr n ws (zeroHashes H addr)),
        jphAfter H addr n ws (zeroHashes H addr)) :: changesAfter H addr n ws))
      (H.khash (jphAfter H addr n ws (zeroHashes H addr))) n
      = some (openedStorage addr (H.khash (jphAfter H addr n ws (zeroHashes H addr)))
          n (hashAfter H addr ws (zeroHashes H addr))) := by
    refine reopen_committed H addr n _ _ _ (hne _) ?_ hflen
    exact kvGet_commit_root H addr n ws _ [] hinj hdis
  refine ⟨_, hopen, rfl, ?_, ?_⟩
  · intro i d hw
    have hi : i < n := hr (i, d) (lastWrite_some_mem hw)
    rw [readPage_opened _ _ _ _ _ i hi]
    have hfi : hashAfter H addr ws (zeroHashes H addr) i = H.phash addr i d := by
      rw [hashAfter_zero, hw]
      rfl
    rw [hfi, kvGet_commit_written H addr n ws _ [] hinj hdis hi hw]
  · intro i hi hw
    have hfi : hashAfter H addr ws (zeroHashes H addr) i
        = H.phash addr i zeroPage := by
      rw [hashAfter_zero, hw]
      rfl
    constructor
    · rw [readPage_opened _ _ _ _ _ i hi, hfi,
        kvGet_store_not_mem _ (key_not_mem H addr n ws _ hinj hdis i zeroPage
          (by rw [hw]; intro hc; cases hc))]
      rfl
    · rw [getPageHash_opened _ _ _ _ i hi, hfi]

set_option maxRecDepth 1000000 in
/-- C2 witness: the round-trip theorem instantiated at the concrete run
`c2ws` on two pages over the collision-free `wHashers`. -/
theorem merkle_c2_roundtrip_witness :
    WritesInRange c2ws 2 ∧
    MerklePageStorage.runCommit wHashers wAddr 2 c2ws [] = some c2pair ∧
    (∃ s2, MerklePageStorage.new wHashers wAddr c2pair.2
        (MerklePageStorage.getState c2pair.1) 2 = some s2 ∧
      MerklePageStorage.getState s2 = MerklePageStorage.getState c2pair.1 ∧
      (∀ i d, lastWrite c2ws i = some d →
        MerklePageStorage.readPage s2 c2pair.2 i = some (some d)) ∧
      (∀ i, i < 2 → lastWrite c2ws i = none →
        MerklePageStorage.readPage s2 c2pair.2 i = some none ∧
        MerklePageStorage.getPageHash s2 i
          = some (wHashers.phash wAddr i zeroPage))) :=
  ⟨by decide, by decide,
   merkle_c2_roundtrip wHashers wAddr 2 c2ws (wHashers_phashInj wAddr)
     (wHashers_disjoint wAddr) wHashers_khashNeEmpty (wHashers_phashLen32 wAddr)
     (by decide) (by decide)⟩

/-- C10: `write_page(i, d)` performs no page-size check: for a byte vector
`d` of any length it succeeds whenever `i` is in range, setting the slot to
`Modified(PH(addr, i, d), d)` over exactly `d`; and a subsequent commit
persists exactly `d` — neither padded nor truncated — as the KV value under
that page hash. -/
theorem merkle_c10_write_any_length (H : Hashers) (addr : Address) (n : Nat)
    (ws : List (Nat × Bytes)) (i : Nat) (d : Bytes) (kv : KV)
    (hinj : PhashInj H addr) (hdis : HashersDisjoint H addr)
    (hr : WritesInRange ws n) (hw : lastWrite ws i = some d) :
    (∀ s : MerklePageStorage, i < s.pages.length →
      MerklePageStorage.writePage H s i d
        = some { s with pages := s.pages.set i (.Modified (H.phash s.addr i d) d) }) ∧
    ∃ sMid s2 kv2,
      MerklePageStorage.applyWrites H
        (openedStorage addr emptyState n (zeroHashes H addr)) ws = some sMid ∧
      sMid.pages[i]? = some (.Modified (H.phash addr i d) d) ∧
      MerklePageStorage.commit H sMid kv = some (s2, kv2) ∧
      kvGet kv2 (H.phash addr i d) = some d := by
  constructor
  · intro s his
    unfold MerklePageStorage.writePage MerklePageStorage.computePageHash
    rw [if_pos his]
  · have hi : i < n := hr (i, d) (lastWrite_some_mem hw)
    refine ⟨_, _, _,
      applyWrites_opened H addr emptyState n (zeroHashes H addr) ws hr, ?_,
      commit_mid H addr emptyState n (zeroHashes H addr) ws kv, ?_⟩
    · rw [List.getElem?_map, List.getElem?_range hi]
      simp only [Option.map_some']
      unfold pageSlotAfter
      rw [hw]
    · exact kvGet_commit_written H addr n ws _ kv hinj hdis hi hw

set_option maxRecDepth 1000000 in
/-- C10 witness: the write sequence `c10ws` holds one-byte, five-byte and
two-byte writes (none of page size); the last write to page 1, `[8, 8]`, is
persisted verbatim. -/
theorem merkle_c10_write_any_length_witness :
    WritesInRange c10ws 2 ∧ lastWrite c10ws 1 = some [8, 8] ∧
    ((∀ s : MerklePageStorage, 1 < s.pages.length →
      MerklePageStorage.writePage wHashers s 1 [8, 8]
        = some { s with
            pages := s.pages.set 1 (.Modified (wHashers.phash s.addr 1 [8, 8]) [8, 8]) }) ∧
    ∃ sMid s2 kv2,
      MerklePageStorage.applyWrites wHashers
        (openedStorage wAddr emptyState 2 (zeroHashes wHashers wAddr)) c10ws
        = some sMid ∧
      sMid.pages[1]? = some (.Modified (wHashers.phash wAddr 1 [8, 8]) [8, 8]) ∧
      MerklePageStorage.commit wHashers sMid [] = some (s2, kv2) ∧
      kvGet kv2 (wHashers.phash wAddr 1 [8, 8]) = some [8, 8]) :=
  ⟨by decide, by decide,
   merkle_c10_write_any_length wHashers wAddr 2 c10ws 1 [8, 8] []
     (wHashers_phashInj wAddr) (wHashers_disjoint wAddr) (by decide) (by decide)⟩

set_option maxRecDepth 1000000 in
/-- C9 counterexample: run 1 commits one page with no writes (page 0 is the
implicit zero page, no bytes in KV); run 2 reopens that state and writes the
32-byte zero page explicitly, then commits.  Reopening the *older* state
after the second commit changes the result of `read_page(0)` from `None`
(implicit zero page) to `Some [0; 32]`, because the second commit persisted
bytes under the very digest the older state references.  The claim's
"read_page results identical" is therefore false as stated. -/
theorem merkle_c9_counterexample :
    MerklePageStorage.readPage c9run1.1 c9run1.2 0 = some none ∧
    c9reread = some (some (some zeroPage)) ∧
    some (MerklePageStorage.readPage c9run1.1 c9run1.2 0) ≠ c9reread := by
  refine ⟨by decide, by decide, by decide⟩

/-- C9 amended: after two successive commits over one KV, provided the second
run does not write the 32-byte zero page to any page the first run left
unwritten, reopening the older state yields the very same storage (hence
`get_state` = the older state) and `read_page` results identical to those
right after the first commit; and later commits never remove a KV entry or
change its value.  Requires collision-free hashers. -/
theorem merkle_c9_amended (H : Hashers) (addr : Address) (n : Nat)
    (ws1 ws2 : List (Nat × Bytes)) (hinj : PhashInj H addr) (hkinj : KhashInj H)
    (hdis : HashersDisjoint H addr) (hne : KhashNeEmpty H)
    (hlen : PhashLen32 H addr) (hr1 : WritesInRange ws1 n)
    (hr2 : WritesInRange ws2 n)
    (hz : ∀ i, lastWrite ws1 i = none → lastWrite ws2 i ≠ some zeroPage)
    {s1 : MerklePageStorage} {kv1 : KV}
    (hrun1 : MerklePageStorage.runCommit H addr n ws1 [] = some (s1, kv1))
    {s2 : MerklePageStorage}
    (hopen : MerklePageStorage.new H addr kv1 (MerklePageStorage.getState s1) n
      = some s2)
    {s3 : MerklePageStorage} {kv2 : KV}
    (hrun2 : (MerklePageStorage.applyWrites H s2 ws2).bind
      (fun s => MerklePageStorage.commit H s kv1) = some (s3, kv2)) :
    MerklePageStorage.new H addr kv2 (MerklePageStorage.getState s1) n = some s2 ∧
    MerklePageStorage.getState s2 = MerklePageStorage.getState s1 ∧
    (∀ i, MerklePageStorage.readPage s2 kv2 i
      = MerklePageStorage.readPage s2 kv1 i) ∧
    (∀ k v, kvGet kv1 k = some v → kvGet kv2 k = some v) := by
  rw [runCommit_spec H addr n ws1 [] hr1] at hrun1
  obtain ⟨hs1, hkv1⟩ := Prod.mk.inj (Option.some.inj hrun1)
  subst hs1
  subst hkv1
  have hflen : ∀ i, i < n →
      (hashAfter H addr ws1 (zeroHashes H addr) i).length = 32 := by
    intro i _
    rw [hashAfter_zero]
    exact hlen i _
  have hopeneq : MerklePageStorage.new H addr
      (kvStore [] ((H.khash (jphAfter H addr n ws1 (zeroHashes H addr)),
        jphAfter H addr n ws1 (zeroHashes H addr)) :: changesAfter H addr n ws1))
      (H.khash (jphAfter H addr n ws1 (zeroHashes H addr))) n
      = some (openedStorage addr
          (H.khash (jphAfter H addr n ws1 (zeroHashes H addr))) n
          (hashAfter H addr ws1 (zeroHashes H addr))) := by
    refine reopen_committed H addr n _ _ _ (hne _) ?_ hflen
    exact kvGet_commit_root H addr n ws1 _ [] hinj hdis
  simp only [MerklePageStorage.getState, openedStorage] at hopen
  rw [hopeneq] at hopen
  obtain rfl := Option.some.inj hopen
  rw [applyWrites_opened H addr _ n (hashAfter H addr ws1 (zeroHashes H addr)) ws2 hr2,
    Option.some_bind, commit_mid] at hrun2
  obtain ⟨hs3, hkv2⟩ := Prod.mk.inj (Option.some.inj hrun2)
  subst hkv2
  have hget2root1 : kvGet (kvStore
      (kvStore [] ((H.khash (jphAfter H addr n ws1 (zeroHashes H addr)),
        jphAfter H addr n ws1 (zeroHashes H addr)) :: changesAfter H addr n ws1))
      ((H.khash (jphAfter H addr n ws2 (hashAfter H addr ws1 (zeroHashes H addr))),
        jphAfter H addr n ws2 (hashAfter H addr ws1 (zeroHashes H addr)))
        :: changesAfter H addr n ws2))
      (H.khash (jphAfter H addr n ws1 (zeroHashes H addr)))
      = some (jphAfter H addr n ws1 (zeroHashes H addr)) := by
    by_cases hj : jphAfter H addr n ws2 (hashAfter H addr ws1 (zeroHashes H addr))
        = jphAfter H addr n ws1 (zeroHashes H addr)
    · have := kvGet_commit_root H addr n ws2
        (jphAfter H addr n ws2 (hashAfter H addr ws1 (zeroHashes H addr)))
        (kvStore [] ((H.khash (jphAfter H addr n ws1 (zeroHashes H addr)),
          jphAfter H addr n ws1 (zeroHashes H addr)) :: changesAfter H addr n ws1))
        hinj hdis
      rw [hj] at this ⊢
      exact this
    · have hnm : H.khash (jphAfter H addr n ws1 (zeroHashes H addr))
          ∉ (((H.khash (jphAfter H addr n ws2
              (hashAfter H addr ws1 (zeroHashes H addr))),
            jphAfter H addr n ws2 (hashAfter H addr ws1 (zeroHashes H addr)))
            :: changesAfter H addr n ws2)).map Prod.fst := by
        intro hmem
        rcases List.mem_map.mp hmem with ⟨⟨k2, v2⟩, hm, hfst⟩
        rcases List.mem_cons.mp hm with he | hm2
        · obtain ⟨hk, -⟩ := Prod.mk.inj he
          rw [hk] at hfst
          exact hj (hkinj _ _ hfst)
        · obtain ⟨j, -, -, rfl⟩ := (changesAfter_mem H addr n ws2).mp hm2
          exact hdis _ j v2 hfst.symm
      rw [kvGet_store_not_mem _ hnm]
      exact kvGet_commit_root H addr n ws1 _ [] hinj hdis
  refine ⟨?_, rfl, ?_, ?_⟩
  · exact reopen_committed H addr n _ _ _ (hne _) hget2root1 hflen
  · intro i
    by_cases hi : i < n
    · rw [readPage_opened _ _ _ _ _ i hi, readPage_opened _ _ _ _ _ i hi]
      congr 1
      have hf1i : hashAfter H addr ws1 (zeroHashes H addr) i
          = H.phash addr i ((lastWrite ws1 i).getD zeroPage) := hashAfter_zero H addr ws1 i
      by_cases hw2 : lastWrite ws2 i = some ((lastWrite ws1 i).getD zeroPage)
      · have hw1 : lastWrite ws1 i = some ((lastWrite ws1 i).getD zeroPage) := by
          cases hlw : lastWrite ws1 i with
          | some d => rfl
          | none =>
            exfalso
            apply hz i hlw
            rw [hlw] at hw2
            exact hw2
        rw [hf1i, kvGet_commit_written H addr n ws2 _ _ hinj hdis hi hw2,
          kvGet_commit_written H addr n ws1 _ [] hinj hdis hi hw1]
      · rw [hf1i, kvGet_store_not_mem _
          (key_not_mem H addr n ws2 _ hinj hdis i _ hw2)]
    · rw [readPage_opened_oob _ _ _ _ _ i hi, readPage_opened_oob _ _ _ _ _ i hi]
  · intro k v hkv
    rcases kvGet_store_cases [] hkv with hm1 | hbase
    · rcases List.mem_cons.mp hm1 with he | hm1b
      · obtain ⟨rfl, rfl⟩ := Prod.mk.inj he
        exact hget2root1
      · obtain ⟨j, hj, hlw1, rfl⟩ := (changesAfter_mem H addr n ws1).mp hm1b
        by_cases hw2 : lastWrite ws2 j = some v
        · exact kvGet_commit_written H addr n ws2 _ _ hinj hdis hj hw2
        · rw [kvGet_store_not_mem _ (key_not_mem H addr n ws2 _ hinj hdis j v hw2)]
          exact hkv
    · cases hbase

set_option maxRecDepth 1000000 in
/-- C9 amended, witness: a one-page rollback scenario — commit `[10,20,30]`,
reopen and commit `[11,22,33]`, then reopen the first state. -/
theorem merkle_c9_amended_witness :
    (∀ i, lastWrite c9ws1 i = none → lastWrite c9ws2 i ≠ some zeroPage) ∧
    MerklePageStorage.runCommit wHashers wAddr 1 c9ws1 [] = some c9wpair1 ∧
    MerklePageStorage.new wHashers wAddr c9wpair1.2
      (MerklePageStorage.getState c9wpair1.1) 1 = some c9wopen ∧
    (MerklePageStorage.applyWrites wHashers c9wopen c9ws2).bind
      (fun s => MerklePageStorage.commit wHashers s c9wpair1.2) = some c9wpair2 ∧
    (MerklePageStorage.new wHashers wAddr c9wpair2.2
        (MerklePageStorage.getState c9wpair1.1) 1 = some c9wopen ∧
      MerklePageStorage.getState c9wopen = MerklePageStorage.getState c9wpair1.1 ∧
      (∀ i, MerklePageStorage.readPage c9wopen c9wpair2.2 i
        = MerklePageStorage.readPage c9wopen c9wpair1.2 i) ∧
      (∀ k v, kvGet c9wpair1.2 k = some v → kvGet c9wpair2.2 k = some v)) := by
  have hzp : ∀ i, lastWrite c9ws1 i = none → lastWrite c9ws2 i ≠ some zeroPage := by
    intro i h1 h2
    have hm := lastWrite_some_mem h2
    have he : ((i, zeroPage) : Nat × Bytes) = (0, [11, 22, 33]) :=
      List.mem_singleton.mp hm
    have hb := (Prod.mk.inj he).2
    exact absurd hb (by decide)
  refine ⟨hzp, by decide, by decide, by decide, ?_⟩
  have hrun2c : (MerklePageStorage.applyWrites wHashers c9wopen c9ws2).bind
      (fun s => MerklePageStorage.commit wHashers s c9wpair1.2)
      = some (c9wpair2.1, c9wpair2.2) := by decide
  exact merkle_c9_amended wHashers wAddr 1 c9ws1 c9ws2 (wHashers_phashInj wAddr)
    wHashers_khashInj (wHashers_disjoint wAddr) wHashers_khashNeEmpty
    (wHashers_phashLen32 wAddr) (by decide) (by decide) hzp (by decide) (by decide)
    hrun2c

end Svm
